import Mathlib

/-!
Verification of the asksage-proxy credential pool, configuration parsing,
backend client and message-content translation, as a shallow embedding of
the Python sources (`src/asksage_proxy/api_key_manager.py`,
`src/asksage_proxy/config.py`, `src/asksage_proxy/client.py`).

Python floats are modelled as rationals (`ℚ`), Python lists as `List`,
dictionaries keyed by weights as total functions `ℚ → Nat` (only weights
present in the pool are ever read), and raising `ValueError` as returning
`Except.error`.
-/

namespace AskSageProxy

/-- Embedding of `config.py` `ApiKeyConfig`: a single API key with a
priority weight and an optional name. -/
structure ApiKeyConfig where
  key : String
  weight : ℚ
  name : Option String
  deriving Repr, DecidableEq

/-- The checks of `ApiKeyConfig.__post_init__` (config.py lines 29-34):
the key must be non-empty and the weight positive. -/
def postInitCheck (k : ApiKeyConfig) : Except String Unit :=
  if k.key = "" then .error "API key cannot be empty"
  else if k.weight ≤ 0 then .error "API key weight must be positive"
  else .ok ()

/-- Constructing an `ApiKeyConfig` in Python runs `__post_init__`:
construction fails when the validation raises. -/
def mkApiKeyConfig (key : String) (weight : ℚ) (name : Option String) :
    Except String ApiKeyConfig :=
  match postInitCheck ⟨key, weight, name⟩ with
  | .error e => .error e
  | .ok _ => .ok ⟨key, weight, name⟩

/-- Placeholder credential used to totalise Python list indexing; every
access proved about is shown to be in range. -/
def defaultKey : ApiKeyConfig := ⟨"", 1, none⟩

instance : Inhabited ApiKeyConfig := ⟨defaultKey⟩

/-- Mutable state of `ApiKeyManager` (api_key_manager.py): the key list,
the global round-robin cursor `_current_index`, the cached `_total_weight`,
and the per-weight round-robin cursors `_weight_group_indices`.
`_weight_groups` is derived from `api_keys` (see `groupOf`). -/
structure ManagerState where
  api_keys : List ApiKeyConfig
  current_index : Nat
  total_weight : ℚ
  weight_group_indices : ℚ → Nat

/-- `self._weight_groups[w]`: the keys of weight `w`, in list order
(the dict groups by append order over `self.api_keys`). -/
def groupOf (keys : List ApiKeyConfig) (w : ℚ) : List ApiKeyConfig :=
  keys.filter (fun k => k.weight = w)

/-- The distinct weights present in the pool (the keys of
`self._weight_groups`). -/
def distinctWeights (keys : List ApiKeyConfig) : List ℚ :=
  (keys.map (fun k => k.weight)).dedup

/-- Descending insertion used to embed
`sorted(self._weight_groups.keys(), reverse=True)`. -/
def insertDesc (x : ℚ) : List ℚ → List ℚ
  | [] => [x]
  | y :: ys => if y ≤ x then x :: y :: ys else y :: insertDesc x ys

/-- Descending sort of a list of weights. -/
def sortDesc (l : List ℚ) : List ℚ := l.foldr insertDesc []

/-- `sorted_weights` of `_get_next_key_weighted_round_robin`
(api_key_manager.py line 135). -/
def sortedWeights (keys : List ApiKeyConfig) : List ℚ :=
  sortDesc (distinctWeights keys)

/-- A tier's mass: `weight * len(self._weight_groups[weight])`
(api_key_manager.py line 139). -/
def tierMass (keys : List ApiKeyConfig) (w : ℚ) : ℚ :=
  w * ((groupOf keys w).length : ℚ)

/-- The loop of api_key_manager.py lines 137-144: walk the sorted weights
accumulating tier mass; select the first tier whose accumulated mass
reaches the draw. Returns `none` when the walk falls off the end. -/
def walkTiers (keys : List ApiKeyConfig) (r : ℚ) :
    List ℚ → ℚ → Option ℚ
  | [], _ => none
  | w :: ws, acc =>
      if r ≤ acc + tierMass keys w then some w
      else walkTiers keys r ws (acc + tierMass keys w)

/-- `max(self._weight_groups.keys())` (api_key_manager.py line 148). -/
def listMax : List ℚ → ℚ
  | [] => 0
  | x :: xs => xs.foldl max x

/-- The weight tier selected by `_get_next_key_weighted_round_robin`
for a draw `r` (api_key_manager.py lines 131-148), including the
fall-back to the globally maximum weight when no tier was selected. -/
def wrrSelectWeight (s : ManagerState) (r : ℚ) : ℚ :=
  (walkTiers s.api_keys r (sortedWeights s.api_keys) 0).getD
    (listMax (distinctWeights s.api_keys))

/-- `get_next_key_round_robin` (api_key_manager.py lines 51-63): return
the key at the global cursor and advance the cursor by one modulo the
pool size. -/
def get_next_key_round_robin (s : ManagerState) :
    ApiKeyConfig × ManagerState :=
  (s.api_keys.getD s.current_index defaultKey,
   { s with current_index := (s.current_index + 1) % s.api_keys.length })

/-- `_get_next_key_weighted_round_robin` (api_key_manager.py lines
112-164). When the total weight is non-positive it performs the same
cursor rotation as `get_next_key_round_robin` (its lines 121-124 repeat
that code); otherwise it selects a weight tier from the draw `r` and
round-robins inside that tier via the tier's private cursor. -/
def wrrStep (s : ManagerState) (r : ℚ) : ApiKeyConfig × ManagerState :=
  if s.total_weight ≤ 0 then
    (s.api_keys.getD s.current_index defaultKey,
     { s with current_index := (s.current_index + 1) % s.api_keys.length })
  else
    let w := wrrSelectWeight s r
    let g := groupOf s.api_keys w
    let ci := s.weight_group_indices w
    (g.getD ci defaultKey,
     { s with weight_group_indices :=
        fun w' => if w' = w then (ci + 1) % g.length else s.weight_group_indices w' })

/-- The inner loop of `get_next_key_weighted` (api_key_manager.py lines
79-87): walk the keys accumulating weight, returning the first key whose
accumulated weight reaches the draw. -/
def weightedWalk (r : ℚ) : List ApiKeyConfig → ℚ → Option ApiKeyConfig
  | [], _ => none
  | k :: ks, acc =>
      if r ≤ acc + k.weight then some k else weightedWalk r ks (acc + k.weight)

/-- `get_next_key_weighted` (api_key_manager.py lines 65-90): weighted
random selection, falling back to round-robin when the total weight is
non-positive and to the last key when the walk selects nothing. -/
def get_next_key_weighted (s : ManagerState) (r : ℚ) :
    ApiKeyConfig × ManagerState :=
  if s.total_weight ≤ 0 then get_next_key_round_robin s
  else ((weightedWalk r s.api_keys 0).getD (s.api_keys.getLastD defaultKey), s)

/-- `get_next_key` (api_key_manager.py lines 92-110): strategy dispatch.
Any strategy other than `"round_robin"` and `"weighted"` falls through to
the default weighted-round-robin branch. -/
def get_next_key (s : ManagerState) (strategy : String) (r : ℚ) :
    ApiKeyConfig × ManagerState :=
  if strategy = "round_robin" then get_next_key_round_robin s
  else if strategy = "weighted" then get_next_key_weighted s r
  else wrrStep s r

/-- `update_keys` (api_key_manager.py lines 188-211), in state-passing
style: an empty replacement list raises before any state is touched
(the returned state is the old one); otherwise the key list is swapped,
the global cursor reset, the total weight recomputed and every tier
cursor reset to 0. -/
def update_keys (s : ManagerState) (new_keys : List ApiKeyConfig) :
    Except String Unit × ManagerState :=
  if new_keys = [] then (.error "At least one API key is required", s)
  else (.ok (),
    { api_keys := new_keys,
      current_index := 0,
      total_weight := (new_keys.map (fun k => k.weight)).sum,
      weight_group_indices := fun _ => 0 })

/-- The per-key secret preview built by `get_stats`
(api_key_manager.py line 227): `key[:8] + "..."` when the key is longer
than 8 characters, the key itself otherwise. -/
def keyPreview (key : String) : String :=
  if key.length > 8 then String.mk (key.data.take 8) ++ "..." else key

/-- One per-key entry of the `get_stats` snapshot
(api_key_manager.py lines 223-230). -/
structure KeyStats where
  name : String
  weight : ℚ
  key_preview : String
  deriving Repr, DecidableEq

/-- The `get_stats` snapshot (api_key_manager.py lines 213-231). -/
structure ManagerStats where
  total_keys : Nat
  total_weight : ℚ
  current_index : Nat
  keys : List KeyStats

/-- `get_stats` (api_key_manager.py lines 213-231). -/
def get_stats (s : ManagerState) : ManagerStats :=
  { total_keys := s.api_keys.length,
    total_weight := s.total_weight,
    current_index := s.current_index,
    keys := (List.range s.api_keys.length).map (fun i =>
      let k := s.api_keys.getD i defaultKey
      { name := match k.name with
          | some n => if n = "" then "key-" ++ toString (i + 1) else n
          | none => "key-" ++ toString (i + 1),
        weight := k.weight,
        key_preview := keyPreview k.key }) }

/-! ## Configuration parsing (`config.py` `AskSageConfig.from_dict` and
`AskSageConfig.validate`) -/

/-- One entry of the configuration's `api_keys` list: either a bare
secret string or an object `{key, weight?, name?}` (config.py lines
74-86). -/
inductive ApiKeyEntry where
  | str (s : String)
  | obj (key : String) (weight : Option ℚ) (name : Option String)
  deriving Repr, DecidableEq

/-- Parsing of the entry at 0-based position `i` (config.py lines 74-86):
a dict entry gets an auto-generated name `key_<i+1>` when its name is
missing or empty, and its weight defaults to `1.0`; a string entry gets
weight `1.0` and name `key_<i+1>`. Construction runs `__post_init__`. -/
def parseEntry (i : Nat) : ApiKeyEntry → Except String ApiKeyConfig
  | .str s => mkApiKeyConfig s 1 (some ("key_" ++ toString (i + 1)))
  | .obj key w name =>
      let name' := match name with
        | none => "key_" ++ toString (i + 1)
        | some n => if n = "" then "key_" ++ toString (i + 1) else n
      mkApiKeyConfig key (w.getD 1) (some name')

/-- The loop of config.py lines 73-86, carrying the enumeration index. -/
def parseApiKeysFrom (i : Nat) : List ApiKeyEntry → Except String (List ApiKeyConfig)
  | [] => .ok []
  | e :: es =>
      match parseEntry i e with
      | .error msg => .error msg
      | .ok k =>
        match parseApiKeysFrom (i + 1) es with
        | .error msg => .error msg
        | .ok ks => .ok (k :: ks)

/-- `from_dict`'s handling of the `api_keys` list (config.py lines
69-91). -/
def parseApiKeys (entries : List ApiKeyEntry) : Except String (List ApiKeyConfig) :=
  parseApiKeysFrom 0 entries

/-- The per-key re-validation loop of `validate` (config.py lines
120-128): re-runs each key's `__post_init__`. -/
def validateEachKey : List ApiKeyConfig → Except String Unit
  | [] => .ok ()
  | k :: ks =>
      match postInitCheck k with
      | .error msg => .error msg
      | .ok _ => validateEachKey ks

/-- The names considered by the duplicate check (config.py line 131):
names that are present and non-empty (Python truthiness). -/
def givenNames (keys : List ApiKeyConfig) : List String :=
  keys.filterMap (fun k => k.name.bind (fun n => if n = "" then none else some n))

/-- `AskSageConfig.validate` restricted to its api_keys checks
(config.py lines 113-133): non-empty list, per-key validation, and no
duplicate names. -/
def validateApiKeys (keys : List ApiKeyConfig) : Except String Unit :=
  if keys = [] then .error "At least one API key is required in api_keys"
  else
    match validateEachKey keys with
    | .error msg => .error msg
    | .ok _ =>
      if (givenNames keys).Nodup then .ok ()
      else .error "Duplicate API key names found"

/-- Configuration loading of the api_keys list: `from_dict` followed by
`validate`, as `load_config` performs (config.py lines 160-253). -/
def loadApiKeys (entries : List ApiKeyEntry) : Except String (List ApiKeyConfig) :=
  match parseApiKeys entries with
  | .error msg => .error msg
  | .ok keys =>
    match validateApiKeys keys with
    | .error msg => .error msg
    | .ok _ => .ok keys

/-! ## Backend client (`client.py` `AskSageClient.query`) -/

/-- The configuration attributes read by `AskSageClient.query`
(client.py lines 63-65): the server base URL and the credential secret
exposed as `api_key`. -/
structure ClientConfig where
  asksage_server_base_url : String
  api_key : String

/-- An outbound HTTP request as assembled by the client. -/
structure HttpRequest where
  method : String
  url : String
  headers : List (String × String)
  body : String
  deriving Repr, DecidableEq

/-- A backend HTTP response: status code and (JSON) body. -/
structure HttpResponse where
  status : Nat
  body : String
  deriving Repr, DecidableEq

/-- The request built by `AskSageClient.query` (client.py lines 63-69):
POST to `<server-base>/query` with the `x-access-tokens` header set to
the credential secret and the payload as JSON body. -/
def buildQueryRequest (config : ClientConfig) (payload : String) : HttpRequest :=
  { method := "POST",
    url := config.asksage_server_base_url ++ "/query",
    headers := [("x-access-tokens", config.api_key),
                ("Content-Type", "application/json")],
    body := payload }

/-- The response handling of `AskSageClient.query` (client.py lines
69-73): raise on any non-200 status, otherwise return the decoded JSON
body. -/
def handleQueryResponse (resp : HttpResponse) : Except String String :=
  if resp.status ≠ 200 then .error ("Query failed: " ++ toString resp.status)
  else .ok resp.body

/-- `AskSageClient.query` (client.py lines 58-73) over an abstract
transport `respond` mapping the assembled request to the backend's
response. -/
def clientQuery (config : ClientConfig) (payload : String)
    (respond : HttpRequest → HttpResponse) : Except String String :=
  handleQueryResponse (respond (buildQueryRequest config payload))

/-! ## Message content extraction -/

/-- One part of a multi-part message content value. -/
inductive ContentPart where
  | text (s : String)
  | other (kind : String)
  deriving Repr, DecidableEq

/-- A message `content` value: a plain string or an ordered list of
parts. -/
inductive MessageContent where
  | str (s : String)
  | parts (ps : List ContentPart)
  deriving Repr, DecidableEq

/-- Modelled from the spec: `extract_text_from_content` lives in
`asksage_proxy/endpoints/chat.py`, which is not among the provided
sources (only its test `dev_scripts/test_message_content_fix.py` is).
Per the spec, a plain string passes through unchanged; a list of parts
is reduced to the text of every text-kind part joined with a newline
separator in original order, non-text parts being dropped; empty content
yields the empty string. -/
def extract_text_from_content : MessageContent → String
  | .str s => s
  | .parts ps => String.intercalate "\n"
      (ps.filterMap (fun p => match p with
        | .text t => some t
        | .other _ => none))

/-- A concrete pool state whose only key has weight 0 (total weight 0),
used to exhibit the round-robin fall-back. -/
def zeroWeightState : ManagerState :=
  { api_keys := [⟨"alpha", 0, some "k1"⟩, ⟨"beta", 0, some "k2"⟩],
    current_index := 0,
    total_weight := 0,
    weight_group_indices := fun _ => 0 }

/-- A concrete pool state with two positive-weight tiers. -/
def twoTierState : ManagerState :=
  { api_keys := [⟨"alpha", 2, some "k1"⟩, ⟨"beta", 2, some "k2"⟩, ⟨"gamma", 1, some "k3"⟩],
    current_index := 0,
    total_weight := 5,
    weight_group_indices := fun _ => 0 }

/-- A concrete pool whose only credential has a 5-character secret. -/
def shortKeyState : ManagerState :=
  { api_keys := [⟨"short", 1, some "s1"⟩],
    current_index := 0,
    total_weight := 1,
    weight_group_indices := fun _ => 0 }

/-- A concrete pool whose only credential has a 16-character secret. -/
def longKeyState : ManagerState :=
  { api_keys := [⟨"abcdefghijklmnop", 1, some "l1"⟩],
    current_index := 0,
    total_weight := 1,
    weight_group_indices := fun _ => 0 }

/-- The cumulative mass accumulated by the tier walk after its first `n`
tiers: the sum of `weight * tier size` over the first `n` sorted
weights. -/
def prefixMass (keys : List ApiKeyConfig) (ws : List ℚ) (n : Nat) : ℚ :=
  ((ws.take n).map (tierMass keys)).sum

/-- The sequence of keys selected by repeated
`_get_next_key_weighted_round_robin` calls fed by the draw list `rs`. -/
def wrrRun : ManagerState → List ℚ → List ApiKeyConfig
  | _, [] => []
  | s, r :: rs => (wrrStep s r).1 :: wrrRun (wrrStep s r).2 rs

/-- The subsequence of a selection run landing in the weight tier `w`. -/
def tierHits (s : ManagerState) (rs : List ℚ) (w : ℚ) : List ApiKeyConfig :=
  (wrrRun s rs).filter (fun k => k.weight = w)

/-- Well-formedness of a manager state as established by `__init__` and
`update_keys`: a non-empty pool, every weight positive (the invariant
`__post_init__` enforces on constructed credentials), the cached total
weight equal to the sum of the weights, and every tier cursor in range
for its tier. -/
def wfState (s : ManagerState) : Prop :=
  s.api_keys ≠ [] ∧
  (∀ k ∈ s.api_keys, 0 < k.weight) ∧
  s.total_weight = (s.api_keys.map (fun k => k.weight)).sum ∧
  ∀ k ∈ s.api_keys, s.weight_group_indices k.weight < (groupOf s.api_keys k.weight).length

/-! ## Theorems -/

/-- Short secrets pass through the preview untruncated. -/
lemma keyPreview_of_le (key : String) (h : key.length ≤ 8) : keyPreview key = key := by
  have hn : ¬ key.length > 8 := by omega
  simp [keyPreview, hn]

/-- Long secrets are truncated to their first 8 characters plus `"..."`. -/
lemma keyPreview_of_gt (key : String) (h : 8 < key.length) :
    keyPreview key = String.mk (key.data.take 8) ++ "..." := by
  simp [keyPreview, h]

/-- The truncated preview always has exactly 11 characters. -/
lemma keyPreview_length_of_gt (key : String) (h : 8 < key.length) :
    (keyPreview key).length = 11 := by
  rw [keyPreview_of_gt key h]
  show (String.mk (key.data.take 8) ++ "...").data.length = 11
  rw [String.data_append]
  have hlen : key.data.length = key.length := rfl
  have h3 : "...".data.length = 3 := rfl
  simp [List.length_take, h3]
  omega

/-- Shared helper: when the cached total weight is non-positive,
the weighted-round-robin step performs exactly the round-robin step. -/
lemma wrrStep_of_total_nonpos (s : ManagerState) (h : s.total_weight ≤ 0) (r : ℚ) :
    wrrStep s r = get_next_key_round_robin s := by
  simp [wrrStep, get_next_key_round_robin, h]

/-- C3: when the pool's total weight is ≤ 0, `selectWeightedRoundRobin`
behaves identically to `selectRoundRobin` for every draw: it returns the
key at the global cursor, advances that same cursor by 1 modulo the pool
size, and the result does not depend on the random draw. -/
theorem wrr_fallback_is_round_robin (s : ManagerState) (h : s.total_weight ≤ 0) :
    ∀ r : ℚ, wrrStep s r = get_next_key_round_robin s :=
  fun r => wrrStep_of_total_nonpos s h r

/-- Witness for C3 at a concrete all-zero-weight pool. -/
theorem wrr_fallback_is_round_robin_witness :
    zeroWeightState.total_weight ≤ 0 ∧
      ∀ r : ℚ, wrrStep zeroWeightState r = get_next_key_round_robin zeroWeightState :=
  ⟨by decide, wrr_fallback_is_round_robin zeroWeightState (by decide)⟩

/-- C10: every strategy string other than `"round_robin"` and
`"weighted"` dispatches to the weighted-round-robin selection; an
unknown strategy is never rejected. -/
theorem get_next_key_unknown_strategy (s : ManagerState) (strategy : String) (r : ℚ)
    (h1 : strategy ≠ "round_robin") (h2 : strategy ≠ "weighted") :
    get_next_key s strategy r = wrrStep s r := by
  simp [get_next_key, h1, h2]

/-- Witness for C10 at the misspelled strategy `"weigthed"`. -/
theorem get_next_key_unknown_strategy_witness :
    ("weigthed" ≠ "round_robin") ∧ ("weigthed" ≠ "weighted") ∧
      get_next_key twoTierState "weigthed" 1 = wrrStep twoTierState 1 :=
  ⟨by decide, by decide,
    get_next_key_unknown_strategy twoTierState "weigthed" 1 (by decide) (by decide)⟩

/-- C4: replacing the pool with an empty list fails and leaves the whole
state exactly as it was; replacing with a non-empty list succeeds,
resets the global cursor and every tier cursor to 0, and recomputes the
total weight and the weight tiers from the new credentials. -/
theorem update_keys_spec (s : ManagerState) (new_keys : List ApiKeyConfig) :
    (new_keys = [] →
      update_keys s new_keys = (.error "At least one API key is required", s)) ∧
    (new_keys ≠ [] →
      (update_keys s new_keys).1 = .ok () ∧
      (update_keys s new_keys).2.api_keys = new_keys ∧
      (update_keys s new_keys).2.current_index = 0 ∧
      (∀ w, (update_keys s new_keys).2.weight_group_indices w = 0) ∧
      (update_keys s new_keys).2.total_weight = (new_keys.map (fun k => k.weight)).sum ∧
      (∀ w, groupOf (update_keys s new_keys).2.api_keys w = groupOf new_keys w)) := by
  constructor
  · intro h
    simp [update_keys, h]
  · intro h
    simp [update_keys, h]

/-- Witness for C4: the empty replacement fails leaving the state, and a
singleton replacement resets the cursors and recomputes the weights. -/
theorem update_keys_spec_witness :
    (update_keys twoTierState [] = (.error "At least one API key is required", twoTierState)) ∧
    ((update_keys twoTierState [⟨"delta", 3, some "d"⟩]).1 = .ok () ∧
      (update_keys twoTierState [⟨"delta", 3, some "d"⟩]).2.api_keys = [⟨"delta", 3, some "d"⟩] ∧
      (update_keys twoTierState [⟨"delta", 3, some "d"⟩]).2.current_index = 0 ∧
      (∀ w, (update_keys twoTierState [⟨"delta", 3, some "d"⟩]).2.weight_group_indices w = 0) ∧
      (update_keys twoTierState [⟨"delta", 3, some "d"⟩]).2.total_weight =
        (([⟨"delta", 3, some "d"⟩] : List ApiKeyConfig).map (fun k => k.weight)).sum ∧
      (∀ w, groupOf (update_keys twoTierState [⟨"delta", 3, some "d"⟩]).2.api_keys w =
        groupOf [⟨"delta", 3, some "d"⟩] w)) :=
  ⟨(update_keys_spec twoTierState []).1 rfl,
   (update_keys_spec twoTierState [⟨"delta", 3, some "d"⟩]).2 (by decide)⟩

/-- C5 counterexample: constructing a credential with weight 0 does not
succeed — `__post_init__` rejects any weight ≤ 0. -/
theorem mk_zero_weight_fails :
    mkApiKeyConfig "secret" 0 none = .error "API key weight must be positive" := by
  rfl

/-- C5 (amended): constructing a credential with weight ≤ 0 fails with
"API key weight must be positive"; nevertheless a pool state whose total
weight is non-positive falls back to pure round-robin selection rather
than failing. -/
theorem weight_nonpositive_rejected_with_fallback (key : String) (w : ℚ)
    (name : Option String) (s : ManagerState) (r : ℚ)
    (hk : key ≠ "") (hw : w ≤ 0) (hs : s.total_weight ≤ 0) :
    mkApiKeyConfig key w name = .error "API key weight must be positive" ∧
      wrrStep s r = get_next_key_round_robin s := by
  refine ⟨?_, wrrStep_of_total_nonpos s hs r⟩
  simp [mkApiKeyConfig, postInitCheck, hk, hw]

/-- Witness for C5 at weight `-1` and the concrete zero-weight pool. -/
theorem weight_nonpositive_rejected_with_fallback_witness :
    ("secret" ≠ "") ∧ ((-1 : ℚ) ≤ 0) ∧ zeroWeightState.total_weight ≤ 0 ∧
      (mkApiKeyConfig "secret" (-1) none = .error "API key weight must be positive" ∧
        wrrStep zeroWeightState 0 = get_next_key_round_robin zeroWeightState) :=
  ⟨by decide, by decide, by decide,
    weight_nonpositive_rejected_with_fallback "secret" (-1) none zeroWeightState 0
      (by decide) (by decide) (by decide)⟩

/-- C8: text extraction passes through plain strings, joins the text of
text-kind parts with a newline in original order and drops non-text
parts, and maps empty content to the empty string — checked on every
assertion of `dev_scripts/test_message_content_fix.py` plus the spec's
`[{text:"A"},{type:"image"},{text:"B"}]` example. -/
theorem extract_text_from_content_spec :
    extract_text_from_content (.str "Hello, world!") = "Hello, world!" ∧
    extract_text_from_content (.parts [.text "Single part message"]) = "Single part message" ∧
    extract_text_from_content
      (.parts [.text "First part of the message", .text "Second part of the message"]) =
      "First part of the message\nSecond part of the message" ∧
    extract_text_from_content (.str "") = "" ∧
    extract_text_from_content (.parts []) = "" ∧
    extract_text_from_content
      (.parts [.text "Text content", .other "image", .text "More text content"]) =
      "Text content\nMore text content" ∧
    extract_text_from_content (.parts [.text "A", .other "image", .text "B"]) = "A\nB" := by
  refine ⟨rfl, rfl, rfl, rfl, rfl, rfl, rfl⟩

/-- C9: the backend query assembles a POST request to
`<server-base>/query` carrying the `x-access-tokens` header with the
configured credential secret and the payload as body; a 200 response
yields its decoded body, and every non-200 status yields an error and
never a value. -/
theorem clientQuery_spec (config : ClientConfig) (payload : String)
    (respond : HttpRequest → HttpResponse) :
    (buildQueryRequest config payload).method = "POST" ∧
    (buildQueryRequest config payload).url = config.asksage_server_base_url ++ "/query" ∧
    ("x-access-tokens", config.api_key) ∈ (buildQueryRequest config payload).headers ∧
    (buildQueryRequest config payload).body = payload ∧
    ((respond (buildQueryRequest config payload)).status = 200 →
      clientQuery config payload respond =
        .ok (respond (buildQueryRequest config payload)).body) ∧
    ((respond (buildQueryRequest config payload)).status ≠ 200 →
      (∃ e, clientQuery config payload respond = .error e) ∧
        ∀ b, clientQuery config payload respond ≠ .ok b) := by
  refine ⟨rfl, rfl, by simp [buildQueryRequest], rfl, ?_, ?_⟩
  · intro h
    simp [clientQuery, handleQueryResponse, h]
  · intro h
    simp [clientQuery, handleQueryResponse, h]

/-- Witness for C9 at a concrete configuration, payload and transports
answering 200 and 500. -/
theorem clientQuery_spec_witness :
    ((fun _ => ⟨200, "answer"⟩ : HttpRequest → HttpResponse)
        (buildQueryRequest ⟨"https://base", "tok"⟩ "load")).status = 200 ∧
    ((fun _ => ⟨500, "oops"⟩ : HttpRequest → HttpResponse)
        (buildQueryRequest ⟨"https://base", "tok"⟩ "load")).status ≠ 200 ∧
    clientQuery ⟨"https://base", "tok"⟩ "load" (fun _ => ⟨200, "answer"⟩) =
      .ok ((fun _ => (⟨200, "answer"⟩ : HttpResponse))
        (buildQueryRequest ⟨"https://base", "tok"⟩ "load")).body ∧
    ((∃ e, clientQuery ⟨"https://base", "tok"⟩ "load" (fun _ => ⟨500, "oops"⟩) = .error e) ∧
      ∀ b, clientQuery ⟨"https://base", "tok"⟩ "load" (fun _ => ⟨500, "oops"⟩) ≠ .ok b) :=
  ⟨rfl, by decide,
   (clientQuery_spec ⟨"https://base", "tok"⟩ "load" (fun _ => ⟨200, "answer"⟩)).2.2.2.2.1 rfl,
   (clientQuery_spec ⟨"https://base", "tok"⟩ "load" (fun _ => ⟨500, "oops"⟩)).2.2.2.2.2 (by decide)⟩

/-- C7 counterexample: for a credential whose secret has at most 8
characters the `get_stats` preview is the full secret itself — the
secret is not truncated and the preview equals it. -/
theorem stats_preview_equals_short_secret :
    ((get_stats shortKeyState).keys.getD 0 ⟨"", 0, ""⟩).key_preview = "short" ∧
      (shortKeyState.api_keys.getD 0 defaultKey).key = "short" :=
  ⟨rfl, rfl⟩

/-- C7 (amended): the `get_stats` preview of every credential is
`key[:8] + "..."` only when the secret exceeds 8 characters; a secret of
at most 8 characters appears in the preview in full, and for secrets
longer than 11 characters the preview never equals and never contains
the full secret. -/
theorem get_stats_preview_spec (s : ManagerState) (i : Nat) (d : KeyStats)
    (hi : i < s.api_keys.length) :
    ((get_stats s).keys.getD i d).key_preview
        = keyPreview (s.api_keys.getD i defaultKey).key ∧
    ((s.api_keys.getD i defaultKey).key.length ≤ 8 →
      ((get_stats s).keys.getD i d).key_preview = (s.api_keys.getD i defaultKey).key) ∧
    (8 < (s.api_keys.getD i defaultKey).key.length →
      ((get_stats s).keys.getD i d).key_preview
        = String.mk ((s.api_keys.getD i defaultKey).key.data.take 8) ++ "...") ∧
    (11 < (s.api_keys.getD i defaultKey).key.length →
      ((get_stats s).keys.getD i d).key_preview ≠ (s.api_keys.getD i defaultKey).key ∧
      ¬ (s.api_keys.getD i defaultKey).key.data <:+:
          ((get_stats s).keys.getD i d).key_preview.data) := by
  have hP : ((get_stats s).keys.getD i d).key_preview
      = keyPreview (s.api_keys.getD i defaultKey).key := by
    have hlen : i < (get_stats s).keys.length := by
      simpa [get_stats] using hi
    rw [List.getD_eq_getElem _ _ hlen]
    simp [get_stats]
  refine ⟨hP, ?_, ?_, ?_⟩
  · intro h
    rw [hP, keyPreview_of_le _ h]
  · intro h
    rw [hP, keyPreview_of_gt _ h]
  · intro h
    have h8 : 8 < (s.api_keys.getD i defaultKey).key.length := by omega
    have hlen11 := keyPreview_length_of_gt _ h8
    constructor
    · intro heq
      rw [hP] at heq
      rw [heq] at hlen11
      omega
    · intro hinf
      have hle := hinf.length_le
      have hd : ((get_stats s).keys.getD i d).key_preview.data.length
          = ((get_stats s).keys.getD i d).key_preview.length := rfl
      have hk : (s.api_keys.getD i defaultKey).key.data.length
          = (s.api_keys.getD i defaultKey).key.length := rfl
      rw [hd, hk, hP, hlen11] at hle
      omega

/-- Witness for C7: the short secret appears in full in the stats
preview, and the 16-character secret is neither equal to nor contained
in its preview. -/
theorem get_stats_preview_spec_witness :
    (0 < shortKeyState.api_keys.length) ∧
    (0 < longKeyState.api_keys.length) ∧
    ((shortKeyState.api_keys.getD 0 defaultKey).key.length ≤ 8 ∧
      ((get_stats shortKeyState).keys.getD 0 ⟨"", 0, ""⟩).key_preview
        = (shortKeyState.api_keys.getD 0 defaultKey).key) ∧
    (11 < (longKeyState.api_keys.getD 0 defaultKey).key.length ∧
      ((get_stats longKeyState).keys.getD 0 ⟨"", 0, ""⟩).key_preview
        ≠ (longKeyState.api_keys.getD 0 defaultKey).key ∧
      ¬ (longKeyState.api_keys.getD 0 defaultKey).key.data <:+:
          ((get_stats longKeyState).keys.getD 0 ⟨"", 0, ""⟩).key_preview.data) :=
  ⟨by decide, by decide,
   ⟨by decide, (get_stats_preview_spec shortKeyState 0 ⟨"", 0, ""⟩ (by decide)).2.1 (by decide)⟩,
   ⟨by decide, (get_stats_preview_spec longKeyState 0 ⟨"", 0, ""⟩ (by decide)).2.2.2 (by decide)⟩⟩

/-- A successful construction returns exactly the record built from the
arguments. -/
lemma mkApiKeyConfig_ok {key : String} {w : ℚ} {nm : Option String} {c : ApiKeyConfig}
    (h : mkApiKeyConfig key w nm = .ok c) : c = ⟨key, w, nm⟩ := by
  by_cases hk : key = "" <;> by_cases hw : w ≤ 0 <;>
    simp [mkApiKeyConfig, postInitCheck, hk, hw] at h <;> simp [h]

/-- A non-positive weight always makes construction fail. -/
lemma mkApiKeyConfig_nonpos_error {key : String} {w : ℚ} {nm : Option String}
    (hw : w ≤ 0) : ∃ msg, mkApiKeyConfig key w nm = .error msg := by
  by_cases hk : key = ""
  · exact ⟨"API key cannot be empty", by simp [mkApiKeyConfig, postInitCheck, hk]⟩
  · exact ⟨"API key weight must be positive",
      by simp [mkApiKeyConfig, postInitCheck, hk, hw]⟩

/-- Parsing an object entry with a non-positive weight fails, whatever
name handling applies. -/
lemma parseEntry_obj_nonpos (i : Nat) (key : String) (w : ℚ) (nm : Option String)
    (hw : w ≤ 0) : ∃ msg, parseEntry i (.obj key (some w) nm) = .error msg := by
  cases nm with
  | none =>
    obtain ⟨msg, hmsg⟩ :=
      @mkApiKeyConfig_nonpos_error key w (some ("key_" ++ toString (i + 1))) hw
    exact ⟨msg, by simpa [parseEntry] using hmsg⟩
  | some n =>
    by_cases hn : n = ""
    · obtain ⟨msg, hmsg⟩ :=
        @mkApiKeyConfig_nonpos_error key w (some ("key_" ++ toString (i + 1))) hw
      exact ⟨msg, by simpa [parseEntry, hn] using hmsg⟩
    · obtain ⟨msg, hmsg⟩ := @mkApiKeyConfig_nonpos_error key w (some n) hw
      exact ⟨msg, by simpa [parseEntry, hn] using hmsg⟩

/-- A successful parse yields one credential per entry, each the result
of parsing that entry at its own position. -/
lemma parseApiKeysFrom_ok {entries : List ApiKeyEntry} :
    ∀ {n : Nat} {creds : List ApiKeyConfig}, parseApiKeysFrom n entries = .ok creds →
      creds.length = entries.length ∧
      ∀ i (hi : i < entries.length) (hc : i < creds.length),
        parseEntry (n + i) (entries.get ⟨i, hi⟩) = .ok (creds.get ⟨i, hc⟩) := by
  induction entries with
  | nil =>
    intro n creds h
    simp [parseApiKeysFrom] at h
    simp [← h]
  | cons e es ih =>
    intro n creds h
    cases hpe : parseEntry n e with
    | error msg => simp [parseApiKeysFrom, hpe] at h
    | ok k =>
      cases hps : parseApiKeysFrom (n + 1) es with
      | error msg => simp [parseApiKeysFrom, hpe, hps] at h
      | ok ks =>
        simp [parseApiKeysFrom, hpe, hps] at h
        obtain ⟨hl, hget⟩ := ih hps
        subst h
        refine ⟨by simp [hl], ?_⟩
        intro i hi hc
        cases i with
        | zero => simpa using hpe
        | succ i' =>
          have hstep := hget i' (by simpa using hi) (by simpa using hc)
          have harith : n + 1 + i' = n + (i' + 1) := by omega
          rw [harith] at hstep
          simpa using hstep

/-- A successful load means the parse succeeded with the same list. -/
lemma loadApiKeys_ok_parse {entries : List ApiKeyEntry} {creds : List ApiKeyConfig}
    (h : loadApiKeys entries = .ok creds) : parseApiKeys entries = .ok creds := by
  cases hp : parseApiKeys entries with
  | error msg => simp [loadApiKeys, hp] at h
  | ok keys =>
    cases hv : validateApiKeys keys with
    | error msg => simp [loadApiKeys, hp, hv] at h
    | ok _ =>
      simp [loadApiKeys, hp, hv] at h
      simp [h]

/-- A credential with a non-empty name contributes that name to the
duplicate-check list. -/
lemma mem_givenNames {l : List ApiKeyConfig} {j : Nat} (hj : j < l.length) {nm : String}
    (hne : nm ≠ "") (h : (l.get ⟨j, hj⟩).name = some nm) : nm ∈ givenNames l := by
  have hmem : l.get ⟨j, hj⟩ ∈ l := l.get_mem j hj
  refine List.mem_filterMap.mpr ⟨l.get ⟨j, hj⟩, hmem, ?_⟩
  show (l.get ⟨j, hj⟩).name.bind (fun n => if n = "" then none else some n) = some nm
  rw [h]
  simp [hne]

/-- Two equal non-empty names at distinct positions defeat the
no-duplicates property of the checked name list. -/
lemma dup_names_not_nodup {l : List ApiKeyConfig} :
    ∀ {i j : Nat} (hi : i < l.length) (hj : j < l.length), i ≠ j →
      ∀ {nm : String}, nm ≠ "" →
        (l.get ⟨i, hi⟩).name = some nm → (l.get ⟨j, hj⟩).name = some nm →
        ¬ (givenNames l).Nodup := by
  induction l with
  | nil => intro i j hi _ _ _ _ _ _; exact absurd hi (by simp)
  | cons k ks ih =>
    intro i j hi hj hij nm hne h1 h2 hnd
    cases i with
    | zero =>
      cases j with
      | zero => exact hij rfl
      | succ j' =>
        simp at h1
        have hgn : givenNames (k :: ks) = nm :: givenNames ks := by
          simp [givenNames, List.filterMap_cons, h1, hne]
        rw [hgn] at hnd
        have hmem : nm ∈ givenNames ks :=
          mem_givenNames (by simpa using hj) hne (by simpa using h2)
        exact (List.nodup_cons.mp hnd).1 hmem
    | succ i' =>
      cases j with
      | zero =>
        simp at h2
        have hgn : givenNames (k :: ks) = nm :: givenNames ks := by
          simp [givenNames, List.filterMap_cons, h2, hne]
        rw [hgn] at hnd
        have hmem : nm ∈ givenNames ks :=
          mem_givenNames (by simpa using hi) hne (by simpa using h1)
        exact (List.nodup_cons.mp hnd).1 hmem
      | succ j' =>
        have hnd' : (givenNames ks).Nodup := by
          cases hfk : k.name.bind (fun n => if n = "" then none else some n) with
          | none =>
            have : givenNames (k :: ks) = givenNames ks := by
              simp [givenNames, List.filterMap_cons, hfk]
            rwa [this] at hnd
          | some b =>
            have : givenNames (k :: ks) = b :: givenNames ks := by
              simp [givenNames, List.filterMap_cons, hfk]
            rw [this] at hnd
            exact (List.nodup_cons.mp hnd).2
        exact ih (by simpa using hi) (by simpa using hj) (by omega) hne
          (by simpa using h1) (by simpa using h2) hnd'

/-- A duplicated name makes the validation step fail. -/
lemma validateApiKeys_error_of_dup {keys : List ApiKeyConfig}
    (h : ¬ (givenNames keys).Nodup) : ∃ msg, validateApiKeys keys = .error msg := by
  by_cases hk : keys = []
  · exact ⟨"At least one API key is required in api_keys", by simp [validateApiKeys, hk]⟩
  · cases hv : validateEachKey keys with
    | error msg => exact ⟨msg, by simp [validateApiKeys, hk, hv]⟩
    | ok _ => exact ⟨"Duplicate API key names found", by simp [validateApiKeys, hk, hv, h]⟩

/-- C6: parsing the configuration's api_keys list maps each bare string
entry at 0-based position `i` to a credential with that string as key,
weight 1 and name `key_<i+1>`; maps each object entry to a credential
whose weight defaults to 1 and whose name is auto-generated as
`key_<i+1>` when omitted or empty; fails whenever an entry carries a
non-positive weight; and fails whenever the parsed credentials carry
two equal non-empty names. -/
theorem config_api_keys_parsing_spec :
    (∀ (entries : List ApiKeyEntry) (creds : List ApiKeyConfig) (i : Nat)
        (hi : i < entries.length) (s : String),
      loadApiKeys entries = .ok creds → entries.get ⟨i, hi⟩ = .str s →
      ∃ hc : i < creds.length,
        creds.get ⟨i, hc⟩ = ⟨s, 1, some ("key_" ++ toString (i + 1))⟩) ∧
    (∀ (entries : List ApiKeyEntry) (creds : List ApiKeyConfig) (i : Nat)
        (hi : i < entries.length) (key : String) (w : Option ℚ) (nm : Option String),
      loadApiKeys entries = .ok creds → entries.get ⟨i, hi⟩ = .obj key w nm →
      ∃ hc : i < creds.length,
        creds.get ⟨i, hc⟩ = ⟨key, w.getD 1, some (match nm with
          | none => "key_" ++ toString (i + 1)
          | some n => if n = "" then "key_" ++ toString (i + 1) else n)⟩) ∧
    (∀ (entries : List ApiKeyEntry) (i : Nat) (hi : i < entries.length)
        (key : String) (w : ℚ) (nm : Option String),
      entries.get ⟨i, hi⟩ = .obj key (some w) nm → w ≤ 0 →
      ∃ msg, loadApiKeys entries = .error msg) ∧
    (∀ (entries : List ApiKeyEntry) (creds : List ApiKeyConfig) (i j : Nat)
        (hi : i < creds.length) (hj : j < creds.length) (nm : String),
      parseApiKeys entries = .ok creds → i ≠ j → nm ≠ "" →
      (creds.get ⟨i, hi⟩).name = some nm → (creds.get ⟨j, hj⟩).name = some nm →
      ∃ msg, loadApiKeys entries = .error msg) := by
  refine ⟨?_, ?_, ?_, ?_⟩
  · intro entries creds i hi s hload hstr
    have hp := loadApiKeys_ok_parse hload
    obtain ⟨hl, hget⟩ := parseApiKeysFrom_ok hp
    have hc : i < creds.length := by omega
    refine ⟨hc, ?_⟩
    have hpe := hget i hi hc
    rw [hstr] at hpe
    simp only [parseEntry, Nat.zero_add] at hpe
    exact mkApiKeyConfig_ok hpe
  · intro entries creds i hi key w nm hload hobj
    have hp := loadApiKeys_ok_parse hload
    obtain ⟨hl, hget⟩ := parseApiKeysFrom_ok hp
    have hc : i < creds.length := by omega
    refine ⟨hc, ?_⟩
    have hpe := hget i hi hc
    rw [hobj] at hpe
    cases nm with
    | none =>
      simp only [parseEntry, Nat.zero_add] at hpe
      exact mkApiKeyConfig_ok hpe
    | some n =>
      by_cases hn : n = ""
      · subst hn
        simp only [parseEntry, Nat.zero_add, if_pos rfl] at hpe
        simpa using mkApiKeyConfig_ok hpe
      · simp only [parseEntry, Nat.zero_add, if_neg hn] at hpe
        simpa [hn] using mkApiKeyConfig_ok hpe
  · intro entries i hi key w nm hobj hw
    cases hload : loadApiKeys entries with
    | error msg => exact ⟨msg, rfl⟩
    | ok creds =>
      exfalso
      have hp := loadApiKeys_ok_parse hload
      obtain ⟨hl, hget⟩ := parseApiKeysFrom_ok hp
      have hc : i < creds.length := by omega
      have hpe := hget i hi hc
      rw [hobj] at hpe
      obtain ⟨msg, hmsg⟩ := parseEntry_obj_nonpos (0 + i) key w nm hw
      rw [hmsg] at hpe
      exact absurd hpe (by simp)
  · intro entries creds i j hi hj nm hp hij hne h1 h2
    have hnd := dup_names_not_nodup hi hj hij hne h1 h2
    obtain ⟨msg, hmsg⟩ := validateApiKeys_error_of_dup hnd
    exact ⟨msg, by simp [loadApiKeys, hp, hmsg]⟩

/-- Witness for C6: a bare string and an unnamed object get positional
names and weight 1; a `-1` weight fails; a duplicated name fails. -/
theorem config_api_keys_parsing_spec_witness :
    (loadApiKeys [.str "aaa", .obj "bbb" none none] =
      .ok [⟨"aaa", 1, some "key_1"⟩, ⟨"bbb", 1, some "key_2"⟩]) ∧
    (∃ hc : 0 < ([⟨"aaa", 1, some "key_1"⟩, ⟨"bbb", 1, some "key_2"⟩] : List ApiKeyConfig).length,
      ([⟨"aaa", 1, some "key_1"⟩, ⟨"bbb", 1, some "key_2"⟩] : List ApiKeyConfig).get ⟨0, hc⟩ =
        ⟨"aaa", 1, some ("key_" ++ toString (0 + 1))⟩) ∧
    (∃ msg, loadApiKeys [.obj "ccc" (some (-1)) none] = .error msg) ∧
    (∃ msg, loadApiKeys [.obj "a" none (some "dup"), .obj "b" none (some "dup")] = .error msg) :=
  ⟨rfl,
   (config_api_keys_parsing_spec.1 [.str "aaa", .obj "bbb" none none]
      [⟨"aaa", 1, some "key_1"⟩, ⟨"bbb", 1, some "key_2"⟩] 0 (by decide) "aaa" rfl rfl),
   (config_api_keys_parsing_spec.2.2.1 [.obj "ccc" (some (-1)) none] 0 (by decide)
      "ccc" (-1) none rfl (by norm_num)),
   (config_api_keys_parsing_spec.2.2.2 [.obj "a" none (some "dup"), .obj "b" none (some "dup")]
      [⟨"a", 1, some "dup"⟩, ⟨"b", 1, some "dup"⟩] 0 1 (by decide) (by decide) "dup"
      rfl (by decide) (by decide) rfl rfl)⟩

/-- Descending insertion permutes its input. -/
lemma insertDesc_perm (x : ℚ) (l : List ℚ) : List.Perm (insertDesc x l) (x :: l) := by
  induction l with
  | nil => simp [insertDesc]
  | cons y ys ih =>
    by_cases h : y ≤ x
    · simp [insertDesc, h]
    · rw [insertDesc, if_neg h]
      exact (ih.cons y).trans (List.Perm.swap x y ys)

/-- Membership after descending insertion. -/
lemma mem_insertDesc {x z : ℚ} {l : List ℚ} (h : z ∈ insertDesc x l) : z = x ∨ z ∈ l := by
  have := (insertDesc_perm x l).mem_iff.mp h
  simpa using this

/-- Descending insertion preserves descending sortedness. -/
lemma sorted_insertDesc {x : ℚ} {l : List ℚ} (h : List.Sorted (· ≥ ·) l) :
    List.Sorted (· ≥ ·) (insertDesc x l) := by
  induction l with
  | nil => simp [insertDesc]
  | cons y ys ih =>
    by_cases hxy : y ≤ x
    · rw [insertDesc, if_pos hxy, List.sorted_cons]
      refine ⟨?_, h⟩
      intro b hb
      rcases List.mem_cons.mp hb with rfl | hb'
      · exact hxy
      · exact le_trans ((List.sorted_cons.mp h).1 b hb') hxy
    · rw [insertDesc, if_neg hxy, List.sorted_cons]
      obtain ⟨hy, hys⟩ := List.sorted_cons.mp h
      refine ⟨?_, ih hys⟩
      intro b hb
      rcases mem_insertDesc hb with rfl | hb'
      · exact le_of_lt (lt_of_not_le hxy)
      · exact hy b hb'

/-- The descending sort permutes its input. -/
lemma sortDesc_perm (l : List ℚ) : List.Perm (sortDesc l) l := by
  induction l with
  | nil => simp [sortDesc]
  | cons x xs ih =>
    have h1 : sortDesc (x :: xs) = insertDesc x (sortDesc xs) := rfl
    rw [h1]
    exact (insertDesc_perm _ _).trans (ih.cons x)

/-- The descending sort is sorted in descending order. -/
lemma sortDesc_sorted (l : List ℚ) : List.Sorted (· ≥ ·) (sortDesc l) := by
  induction l with
  | nil => simp [sortDesc]
  | cons x xs ih => exact sorted_insertDesc ih

/-- No mass is accumulated before any tier is visited. -/
lemma prefixMass_zero (keys : List ApiKeyConfig) (ws : List ℚ) :
    prefixMass keys ws 0 = 0 := by
  simp [prefixMass]

/-- Accumulated mass after visiting one more tier. -/
lemma prefixMass_cons (keys : List ApiKeyConfig) (w0 : ℚ) (ws : List ℚ) (n : Nat) :
    prefixMass keys (w0 :: ws) (n + 1) = tierMass keys w0 + prefixMass keys ws n := by
  simp [prefixMass]

/-- The tier walk falls off the end exactly when every cumulative mass
stays strictly below the draw. -/
lemma walkTiers_none_iff (keys : List ApiKeyConfig) (r : ℚ) :
    ∀ (ws : List ℚ) (acc : ℚ),
      walkTiers keys r ws acc = none ↔
        ∀ j, j < ws.length → acc + prefixMass keys ws (j + 1) < r := by
  intro ws
  induction ws with
  | nil =>
    intro acc
    simp [walkTiers]
  | cons w0 ws ih =>
    intro acc
    by_cases hr : r ≤ acc + tierMass keys w0
    · rw [walkTiers, if_pos hr]
      constructor
      · intro hcon
        exact absurd hcon (by simp)
      · intro hall
        exfalso
        have h0 := hall 0 (by simp)
        rw [prefixMass_cons, prefixMass_zero] at h0
        linarith
    · rw [walkTiers, if_neg hr, ih (acc + tierMass keys w0)]
      constructor
      · intro hall j hj
        cases j with
        | zero =>
          rw [prefixMass_cons, prefixMass_zero]
          have := not_le.mp hr
          linarith
        | succ j' =>
          have := hall j' (by simpa using hj)
          rw [prefixMass_cons]
          linarith
      · intro hall j hj
        have := hall (j + 1) (by simpa using hj)
        rw [prefixMass_cons] at this
        linarith

/-- The tier walk selects `w` exactly when `w` sits at the first sorted
position whose cumulative mass reaches the draw. -/
lemma walkTiers_some_iff (keys : List ApiKeyConfig) (r : ℚ) :
    ∀ (ws : List ℚ) (acc : ℚ) (w : ℚ),
      walkTiers keys r ws acc = some w ↔
        ∃ i, ∃ hL : i < ws.length, ws.get ⟨i, hL⟩ = w ∧
          r ≤ acc + prefixMass keys ws (i + 1) ∧
          ∀ j < i, acc + prefixMass keys ws (j + 1) < r := by
  intro ws
  induction ws with
  | nil =>
    intro acc w
    simp [walkTiers]
  | cons w0 ws ih =>
    intro acc w
    by_cases hr : r ≤ acc + tierMass keys w0
    · rw [walkTiers, if_pos hr]
      constructor
      · intro hsome
        have hw : w0 = w := Option.some.inj hsome
        refine ⟨0, by simp, by simpa using hw, ?_, ?_⟩
        · rw [prefixMass_cons, prefixMass_zero]
          linarith
        · intro j hj
          omega
      · rintro ⟨i, hL, hwi, hle, hlt⟩
        cases i with
        | zero => simpa using congrArg some hwi
        | succ i' =>
          exfalso
          have := hlt 0 (Nat.succ_pos i')
          rw [prefixMass_cons, prefixMass_zero] at this
          linarith
    · rw [walkTiers, if_neg hr, ih (acc + tierMass keys w0) w]
      constructor
      · rintro ⟨i, hL, hwi, hle, hlt⟩
        refine ⟨i + 1, by simpa using hL, by simpa using hwi, ?_, ?_⟩
        · rw [prefixMass_cons]
          linarith
        · intro j hj
          cases j with
          | zero =>
            rw [prefixMass_cons, prefixMass_zero]
            have := not_le.mp hr
            linarith
          | succ j' =>
            have := hlt j' (by omega)
            rw [prefixMass_cons]
            linarith
      · rintro ⟨i, hL, hwi, hle, hlt⟩
        cases i with
        | zero =>
          exfalso
          rw [prefixMass_cons, prefixMass_zero] at hle
          apply hr
          linarith
        | succ i' =>
          refine ⟨i', by simpa using hL, by simpa using hwi, ?_, ?_⟩
          · rw [prefixMass_cons] at hle
            linarith
          · intro j hj
            have := hlt (j + 1) (by omega)
            rw [prefixMass_cons] at this
            linarith

/-- The seed of a max-fold bounds nothing above it and the fold
dominates the seed and every element. -/
lemma le_foldl_max (l : List ℚ) : ∀ x : ℚ,
    x ≤ l.foldl max x ∧ ∀ y ∈ l, y ≤ l.foldl max x := by
  induction l with
  | nil =>
    intro x
    simp
  | cons z zs ih =>
    intro x
    constructor
    · calc x ≤ max x z := le_max_left x z
        _ ≤ zs.foldl max (max x z) := (ih (max x z)).1
    · intro y hy
      rcases List.mem_cons.mp hy with rfl | hy'
      · calc y ≤ max x y := le_max_right x y
          _ ≤ zs.foldl max (max x y) := (ih (max x y)).1
      · exact (ih (max x z)).2 y hy'

/-- A max-fold returns its seed or an element of the list. -/
lemma foldl_max_mem (l : List ℚ) : ∀ x : ℚ, l.foldl max x = x ∨ l.foldl max x ∈ l := by
  induction l with
  | nil =>
    intro x
    simp
  | cons z zs ih =>
    intro x
    rcases ih (max x z) with h | h
    · rcases max_choice x z with hx | hz
      · left
        show zs.foldl max (max x z) = x
        rw [h, hx]
      · right
        show zs.foldl max (max x z) ∈ z :: zs
        rw [h, hz]
        exact List.mem_cons_self z zs
    · right
      exact List.mem_cons_of_mem z h

/-- `max` over a non-empty list is a member of it. -/
lemma listMax_mem {l : List ℚ} (h : l ≠ []) : listMax l ∈ l := by
  cases l with
  | nil => exact absurd rfl h
  | cons x xs =>
    rcases foldl_max_mem xs x with h1 | h1
    · rw [listMax, h1]
      exact List.mem_cons_self x xs
    · rw [listMax]
      exact List.mem_cons_of_mem x h1

/-- `max` over a list dominates every member. -/
lemma le_listMax {l : List ℚ} {y : ℚ} (hy : y ∈ l) : y ≤ listMax l := by
  cases l with
  | nil => simp at hy
  | cons x xs =>
    rcases List.mem_cons.mp hy with rfl | hy'
    · exact (le_foldl_max xs y).1
    · exact (le_foldl_max xs x).2 y hy'

/-- C1: for a pool of positive total weight, weighted-round-robin
selection walks the weight tiers in descending weight order (the walked
list is sorted descending and is a permutation of the distinct weights),
selects the tier whose cumulative mass range contains the draw (first
sorted position whose cumulative mass reaches `r`, every earlier one
staying below it), and — when the walk selects no tier — selects the
globally maximum weight; the selected key is then taken from that tier
at the tier's cursor. -/
theorem wrr_tier_selection_spec (s : ManagerState) (r : ℚ)
    (hpos : 0 < s.total_weight) (hne : s.api_keys ≠ []) :
    List.Sorted (· ≥ ·) (sortedWeights s.api_keys) ∧
    (sortedWeights s.api_keys).Perm (distinctWeights s.api_keys) ∧
    (wrrStep s r).1 = (groupOf s.api_keys (wrrSelectWeight s r)).getD
        (s.weight_group_indices (wrrSelectWeight s r)) defaultKey ∧
    ((∃ i, ∃ hL : i < (sortedWeights s.api_keys).length,
        (sortedWeights s.api_keys).get ⟨i, hL⟩ = wrrSelectWeight s r ∧
        r ≤ prefixMass s.api_keys (sortedWeights s.api_keys) (i + 1) ∧
        ∀ j < i, prefixMass s.api_keys (sortedWeights s.api_keys) (j + 1) < r) ∨
      ((∀ j, j < (sortedWeights s.api_keys).length →
          prefixMass s.api_keys (sortedWeights s.api_keys) (j + 1) < r) ∧
        wrrSelectWeight s r = listMax (distinctWeights s.api_keys) ∧
        wrrSelectWeight s r ∈ distinctWeights s.api_keys ∧
        ∀ w' ∈ distinctWeights s.api_keys, w' ≤ wrrSelectWeight s r)) := by
  refine ⟨sortDesc_sorted _, sortDesc_perm _, ?_, ?_⟩
  · have hns : ¬ s.total_weight ≤ 0 := not_le.mpr hpos
    simp [wrrStep, hns]
  · cases hwalk : walkTiers s.api_keys r (sortedWeights s.api_keys) 0 with
    | some w =>
      left
      have hsel : wrrSelectWeight s r = w := by
        simp [wrrSelectWeight, hwalk]
      obtain ⟨i, hL, hwi, hle, hlt⟩ :=
        (walkTiers_some_iff s.api_keys r (sortedWeights s.api_keys) 0 w).mp hwalk
      rw [hsel]
      exact ⟨i, hL, hwi, by simpa using hle, fun j hj => by simpa using hlt j hj⟩
    | none =>
      right
      have hsel : wrrSelectWeight s r = listMax (distinctWeights s.api_keys) := by
        simp [wrrSelectWeight, hwalk]
      have hd : distinctWeights s.api_keys ≠ [] := by
        intro hcon
        have hm : s.api_keys.map (fun k => k.weight) = [] :=
          (List.dedup_eq_nil _).mp hcon
        exact hne (List.map_eq_nil_iff.mp hm)
      refine ⟨?_, hsel, ?_, ?_⟩
      · intro j hj
        have := (walkTiers_none_iff s.api_keys r (sortedWeights s.api_keys) 0).mp hwalk j hj
        simpa using this
      · rw [hsel]
        exact listMax_mem hd
      · intro w' hw'
        rw [hsel]
        exact le_listMax hw'

/-- Witness for C1 at the two-tier pool and the draw 9/2 (which lands in
the second, lighter tier). -/
theorem wrr_tier_selection_spec_witness :
    (0 < twoTierState.total_weight) ∧ (twoTierState.api_keys ≠ []) ∧
    (List.Sorted (· ≥ ·) (sortedWeights twoTierState.api_keys) ∧
    (sortedWeights twoTierState.api_keys).Perm (distinctWeights twoTierState.api_keys) ∧
    (wrrStep twoTierState (9/2)).1 =
      (groupOf twoTierState.api_keys (wrrSelectWeight twoTierState (9/2))).getD
        (twoTierState.weight_group_indices (wrrSelectWeight twoTierState (9/2))) defaultKey ∧
    ((∃ i, ∃ hL : i < (sortedWeights twoTierState.api_keys).length,
        (sortedWeights twoTierState.api_keys).get ⟨i, hL⟩ = wrrSelectWeight twoTierState (9/2) ∧
        (9/2 : ℚ) ≤ prefixMass twoTierState.api_keys (sortedWeights twoTierState.api_keys) (i + 1) ∧
        ∀ j < i, prefixMass twoTierState.api_keys (sortedWeights twoTierState.api_keys) (j + 1) < (9/2 : ℚ)) ∨
      ((∀ j, j < (sortedWeights twoTierState.api_keys).length →
          prefixMass twoTierState.api_keys (sortedWeights twoTierState.api_keys) (j + 1) < (9/2 : ℚ)) ∧
        wrrSelectWeight twoTierState (9/2) = listMax (distinctWeights twoTierState.api_keys) ∧
        wrrSelectWeight twoTierState (9/2) ∈ distinctWeights twoTierState.api_keys ∧
        ∀ w' ∈ distinctWeights twoTierState.api_keys, w' ≤ wrrSelectWeight twoTierState (9/2)))) :=
  ⟨by decide, by decide,
    wrr_tier_selection_spec twoTierState (9/2) (by decide) (by decide)⟩

/-- Members of a weight group carry that weight and come from the
pool. -/
lemma groupOf_weight {keys : List ApiKeyConfig} {w : ℚ} {x : ApiKeyConfig}
    (hx : x ∈ groupOf keys w) : x.weight = w ∧ x ∈ keys := by
  refine ⟨?_, List.mem_of_mem_filter hx⟩
  have := List.of_mem_filter hx
  simpa using this

/-- In-range defaulted indexing lands in the list. -/
lemma getD_mem {l : List ApiKeyConfig} {i : Nat} (h : i < l.length) :
    l.getD i defaultKey ∈ l := by
  rw [List.getD_eq_getElem _ _ h]
  exact List.getElem_mem h

/-- The tier walk only ever selects a walked weight. -/
lemma walkTiers_mem (keys : List ApiKeyConfig) (r : ℚ) :
    ∀ (ws : List ℚ) (acc : ℚ) {w : ℚ}, walkTiers keys r ws acc = some w → w ∈ ws := by
  intro ws
  induction ws with
  | nil =>
    intro acc w h
    simp [walkTiers] at h
  | cons w0 ws ih =>
    intro acc w h
    by_cases hr : r ≤ acc + tierMass keys w0
    · rw [walkTiers, if_pos hr] at h
      simp [Option.some.inj h]
    · rw [walkTiers, if_neg hr] at h
      exact List.mem_cons_of_mem w0 (ih _ h)

/-- Analysis of one weighted-round-robin step from a well-formed state:
the tier cursor is in range, the selected key is the cursor element of
the selected tier (and therefore carries the selected weight and lives
in the pool), the pool list and total weight are unchanged, the selected
tier's cursor advances by one modulo the tier size, and every other
tier's cursor is untouched. -/
lemma wrrStep_weighted (s : ManagerState) (r : ℚ) (hwf : wfState s) :
    s.weight_group_indices (wrrSelectWeight s r) <
      (groupOf s.api_keys (wrrSelectWeight s r)).length ∧
    (wrrStep s r).1 = (groupOf s.api_keys (wrrSelectWeight s r)).getD
      (s.weight_group_indices (wrrSelectWeight s r)) defaultKey ∧
    (wrrStep s r).1.weight = wrrSelectWeight s r ∧
    (wrrStep s r).1 ∈ s.api_keys ∧
    (wrrStep s r).2.api_keys = s.api_keys ∧
    (wrrStep s r).2.total_weight = s.total_weight ∧
    (wrrStep s r).2.weight_group_indices (wrrSelectWeight s r) =
      (s.weight_group_indices (wrrSelectWeight s r) + 1) %
        (groupOf s.api_keys (wrrSelectWeight s r)).length ∧
    ∀ w', w' ≠ wrrSelectWeight s r →
      (wrrStep s r).2.weight_group_indices w' = s.weight_group_indices w' := by
  obtain ⟨hne, hposall, htot, hidx⟩ := hwf
  have hpos : 0 < s.total_weight := by
    rw [htot]
    apply List.sum_pos
    · intro x hx
      obtain ⟨k, hk, he⟩ := List.mem_map.mp hx
      rw [← he]
      exact hposall k hk
    · simp [hne]
  have hns : ¬ s.total_weight ≤ 0 := not_le.mpr hpos
  have hmem : ∃ k ∈ s.api_keys, k.weight = wrrSelectWeight s r := by
    cases hwalk : walkTiers s.api_keys r (sortedWeights s.api_keys) 0 with
    | none =>
      have hd : distinctWeights s.api_keys ≠ [] := by
        intro hcon
        exact hne (List.map_eq_nil_iff.mp ((List.dedup_eq_nil _).mp hcon))
      have hsel : wrrSelectWeight s r = listMax (distinctWeights s.api_keys) := by
        simp [wrrSelectWeight, hwalk]
      have hmax := listMax_mem hd
      obtain ⟨k, hk, he⟩ := List.mem_map.mp (List.mem_dedup.mp hmax)
      exact ⟨k, hk, by rw [he, hsel]⟩
    | some w =>
      have hsel : wrrSelectWeight s r = w := by
        simp [wrrSelectWeight, hwalk]
      have hwmem : w ∈ sortedWeights s.api_keys := walkTiers_mem s.api_keys r _ 0 hwalk
      have hw2 : w ∈ distinctWeights s.api_keys :=
        (sortDesc_perm (distinctWeights s.api_keys)).subset hwmem
      obtain ⟨k, hk, he⟩ := List.mem_map.mp (List.mem_dedup.mp hw2)
      exact ⟨k, hk, by rw [he, hsel]⟩
  obtain ⟨k0, hk0mem, hk0w⟩ := hmem
  have hc : s.weight_group_indices (wrrSelectWeight s r) <
      (groupOf s.api_keys (wrrSelectWeight s r)).length := by
    have := hidx k0 hk0mem
    rwa [hk0w] at this
  have hfst : (wrrStep s r).1 = (groupOf s.api_keys (wrrSelectWeight s r)).getD
      (s.weight_group_indices (wrrSelectWeight s r)) defaultKey := by
    simp [wrrStep, hns]
  have hgrp := groupOf_weight (getD_mem hc)
  refine ⟨hc, hfst, ?_, ?_, ?_, ?_, ?_, ?_⟩
  · rw [hfst]
    exact hgrp.1
  · rw [hfst]
    exact hgrp.2
  · simp [wrrStep, hns]
  · simp [wrrStep, hns]
  · simp [wrrStep, hns]
  · intro w' hw'
    simp [wrrStep, hns, hw']

/-- One weighted step preserves well-formedness. -/
lemma wfState_step (s : ManagerState) (r : ℚ) (hwf : wfState s) :
    wfState (wrrStep s r).2 := by
  obtain ⟨hc, hfst, hw1, hmem1, hkeys, htotw, hidx1, hidx2⟩ := wrrStep_weighted s r hwf
  obtain ⟨hne, hposall, htot, hidx⟩ := hwf
  refine ⟨by rw [hkeys]; exact hne, ?_, ?_, ?_⟩
  · intro k hk
    rw [hkeys] at hk
    exact hposall k hk
  · rw [htotw, hkeys, htot]
  · intro k hk
    rw [hkeys] at hk
    rw [hkeys]
    by_cases hw : k.weight = wrrSelectWeight s r
    · rw [hw, hidx1]
      have hlen : 0 < (groupOf s.api_keys (wrrSelectWeight s r)).length := by omega
      exact Nat.mod_lt _ hlen
    · rw [hidx2 k.weight hw]
      exact hidx k hk

/-- Every selected key in a run comes from the pool. -/
lemma wrrRun_subset :
    ∀ (rs : List ℚ) (s : ManagerState), wfState s →
      ∀ x ∈ wrrRun s rs, x ∈ s.api_keys := by
  intro rs
  induction rs with
  | nil =>
    intro s _ x hx
    simp [wrrRun] at hx
  | cons r rs ih =>
    intro s hwf x hx
    obtain ⟨_, _, _, hmem1, hkeys, _, _, _⟩ := wrrStep_weighted s r hwf
    rw [wrrRun] at hx
    rcases List.mem_cons.mp hx with rfl | hx'
    · exact hmem1
    · have := ih (wrrStep s r).2 (wfState_step s r hwf) x hx'
      rwa [hkeys] at this

/-- The subsequence of selections landing in tier `w` reads the tier
cyclically starting at the tier's cursor. -/
lemma tierHits_cyclic (w : ℚ) :
    ∀ (rs : List ℚ) (s : ManagerState), wfState s →
      ∀ j, j < (tierHits s rs w).length →
        (tierHits s rs w).getD j defaultKey =
          (groupOf s.api_keys w).getD
            ((s.weight_group_indices w + j) % (groupOf s.api_keys w).length) defaultKey := by
  intro rs
  induction rs with
  | nil =>
    intro s hwf j hj
    simp [tierHits, wrrRun] at hj
  | cons r rs ih =>
    intro s hwf j hj
    obtain ⟨hc, hfst, hw1, hmem1, hkeys, htotw, hidx1, hidx2⟩ := wrrStep_weighted s r hwf
    have hwf' := wfState_step s r hwf
    by_cases hhit : (wrrStep s r).1.weight = w
    · have hww : wrrSelectWeight s r = w := by rw [← hw1, hhit]
      have hsplit : tierHits s (r :: rs) w =
          (wrrStep s r).1 :: tierHits (wrrStep s r).2 rs w := by
        simp [tierHits, wrrRun, List.filter_cons, hhit]
      rw [hsplit]
      rw [hsplit] at hj
      cases j with
      | zero =>
        have h0 : ((wrrStep s r).1 :: tierHits (wrrStep s r).2 rs w).getD 0 defaultKey
            = (wrrStep s r).1 := rfl
        rw [h0, hfst, hww]
        have hmod : (s.weight_group_indices w + 0) % (groupOf s.api_keys w).length
            = s.weight_group_indices w := by
          rw [Nat.add_zero]
          exact Nat.mod_eq_of_lt (by rw [← hww]; exact hc)
        rw [hmod]
      | succ j' =>
        have htl : ((wrrStep s r).1 :: tierHits (wrrStep s r).2 rs w).getD (j' + 1) defaultKey
            = (tierHits (wrrStep s r).2 rs w).getD j' defaultKey := rfl
        rw [htl]
        have hj' : j' < (tierHits (wrrStep s r).2 rs w).length := by
          simp at hj
          omega
        have hih := ih (wrrStep s r).2 hwf' j' hj'
        rw [hih, hkeys]
        have hcur : (wrrStep s r).2.weight_group_indices w
            = (s.weight_group_indices w + 1) % (groupOf s.api_keys w).length := by
          rw [← hww]
          exact hidx1
        rw [hcur, Nat.mod_add_mod]
        have harith : s.weight_group_indices w + 1 + j'
            = s.weight_group_indices w + (j' + 1) := by omega
        rw [harith]
    · have hww : wrrSelectWeight s r ≠ w := by rw [← hw1]; exact hhit
      have hsplit : tierHits s (r :: rs) w = tierHits (wrrStep s r).2 rs w := by
        simp [tierHits, wrrRun, List.filter_cons, hhit]
      rw [hsplit]
      rw [hsplit] at hj
      have hih := ih (wrrStep s r).2 hwf' j hj
      rw [hih, hkeys]
      have hcur : (wrrStep s r).2.weight_group_indices w = s.weight_group_indices w :=
        hidx2 w (fun hcon => hww hcon.symm)
      rw [hcur]

/-- A list without duplicates containing exactly one element satisfying
`p` has `countP p` equal to one. -/
lemma countP_eq_one_of_unique {α : Type} (p : α → Bool) :
    ∀ (l : List α), l.Nodup → ∀ t0 ∈ l, p t0 = true →
      (∀ x ∈ l, p x = true → x = t0) → l.countP p = 1 := by
  intro l
  induction l with
  | nil =>
    intro _ t0 h
    simp at h
  | cons x xs ih =>
    intro hnd t0 ht0 hp huniq
    rw [List.countP_cons]
    rcases List.mem_cons.mp ht0 with rfl | hmem
    · have hzero : xs.countP p = 0 := by
        rw [List.countP_eq_zero]
        intro y hy hpy
        have hyt : y = t0 := huniq y (List.mem_cons_of_mem _ hy) hpy
        rw [hyt] at hy
        exact (List.nodup_cons.mp hnd).1 hy
      rw [hzero, hp]
      simp
    · have hx : ¬ p x = true := by
        intro hpx
        have hxt : x = t0 := huniq x (List.mem_cons_self x xs) hpx
        exact (List.nodup_cons.mp hnd).1 (hxt ▸ hmem)
      have hrec := ih (List.nodup_cons.mp hnd).2 t0 hmem hp
        (fun y hy hpy => huniq y (List.mem_cons_of_mem _ hy) hpy)
      simp [hrec, hx]

/-- For each residue `i < k` there is exactly one `t < k` with
`(a + t) % k = i`. -/
lemma exists_unique_shift_mod (a k i : Nat) (hi : i < k) :
    ∃ t0, t0 < k ∧ (a + t0) % k = i ∧ ∀ t, t < k → (a + t) % k = i → t = t0 := by
  have hk0 : 0 < k := lt_of_le_of_lt (Nat.zero_le i) hi
  have hinj : Function.Injective (fun t : Fin k => (⟨(a + t.val) % k, Nat.mod_lt _ hk0⟩ : Fin k)) := by
    intro t1 t2 h12
    have h' : (a + t1.val) % k = (a + t2.val) % k := congrArg Fin.val h12
    have hmod : t1.val % k = t2.val % k := Nat.ModEq.add_left_cancel' a h'
    exact Fin.ext (by rwa [Nat.mod_eq_of_lt t1.isLt, Nat.mod_eq_of_lt t2.isLt] at hmod)
  obtain ⟨t0, ht0⟩ := Finite.injective_iff_surjective.mp hinj ⟨i, hi⟩
  refine ⟨t0.val, t0.isLt, congrArg Fin.val ht0, ?_⟩
  intro t ht hteq
  have heq : (fun t : Fin k => (⟨(a + t.val) % k, Nat.mod_lt _ hk0⟩ : Fin k)) ⟨t, ht⟩
      = (fun t : Fin k => (⟨(a + t.val) % k, Nat.mod_lt _ hk0⟩ : Fin k)) t0 := by
    rw [ht0]
    exact Fin.ext hteq
  exact congrArg Fin.val (hinj heq)

/-- One full block of `k` consecutive draws hits each residue class
exactly once. -/
lemma countP_range_block (a k i : Nat) (hi : i < k) :
    (List.range k).countP (fun t => decide ((a + t) % k = i)) = 1 := by
  obtain ⟨t0, ht0k, ht0eq, huniq⟩ := exists_unique_shift_mod a k i hi
  refine countP_eq_one_of_unique _ (List.range k) (List.nodup_range k)
    t0 (List.mem_range.mpr ht0k) (decide_eq_true ht0eq) ?_
  intro t ht hpt
  exact huniq t (List.mem_range.mp ht) (of_decide_eq_true hpt)

/-- `m` full blocks of `k` consecutive draws hit each residue class
exactly `m` times. -/
lemma countP_range_mul (a k i : Nat) (hi : i < k) :
    ∀ m, (List.range (m * k)).countP (fun t => decide ((a + t) % k = i)) = m := by
  intro m
  induction m with
  | zero => simp
  | succ m ih =>
    have hmk : (m + 1) * k = m * k + k := by ring
    rw [hmk, List.range_add, List.countP_append, ih]
    have hblock : ((List.range k).map (fun t => m * k + t)).countP
        (fun t => decide ((a + t) % k = i)) = 1 := by
      rw [List.countP_map]
      have hcongr : ∀ t ∈ List.range k,
          ((fun t => decide ((a + t) % k = i)) ∘ (fun t => m * k + t)) t = true ↔
            (fun t => decide ((a + t) % k = i)) t = true := by
        intro t _
        have harith : (a + (m * k + t)) % k = (a + t) % k := by
          have h1 : a + (m * k + t) = (a + t) + m * k := by ring
          rw [h1, Nat.add_mul_mod_self_right]
        simp [Function.comp, harith]
      rw [List.countP_congr hcongr]
      exact countP_range_block a k i hi
    rw [hblock]

/-- C2: from any well-formed state, the subsequence of
weighted-round-robin selections landing in the tier of weight `w` (a
tier of pairwise-distinct credentials) visits the tier in a fixed cyclic
order starting at the tier cursor; across any `m * k` consecutive tier
hits every tier credential is selected exactly `m` times; and no
credential repeats before all `k` tier-mates have been chosen once
(equal selections are at least `k` apart). -/
theorem wrr_intra_tier_round_robin (s : ManagerState) (w : ℚ) (rs : List ℚ)
    (hwf : wfState s) (hnd : (groupOf s.api_keys w).Nodup) :
    (∀ j, j < (tierHits s rs w).length →
      (tierHits s rs w).getD j defaultKey =
        (groupOf s.api_keys w).getD
          ((s.weight_group_indices w + j) % (groupOf s.api_keys w).length) defaultKey) ∧
    (∀ J m, J + m * (groupOf s.api_keys w).length ≤ (tierHits s rs w).length →
      ∀ i, i < (groupOf s.api_keys w).length →
        (((tierHits s rs w).drop J).take (m * (groupOf s.api_keys w).length)).count
          ((groupOf s.api_keys w).getD i defaultKey) = m) ∧
    (∀ j1 j2, j1 < j2 → j2 < (tierHits s rs w).length →
      (tierHits s rs w).getD j1 defaultKey = (tierHits s rs w).getD j2 defaultKey →
      (groupOf s.api_keys w).length ≤ j2 - j1) := by
  have hcyc := tierHits_cyclic w rs s hwf
  refine ⟨hcyc, ?_, ?_⟩
  · intro J m hJm i hik
    have hk0 : 0 < (groupOf s.api_keys w).length := lt_of_le_of_lt (Nat.zero_le i) hik
    have hwin : (((tierHits s rs w).drop J).take (m * (groupOf s.api_keys w).length)) =
        (List.range (m * (groupOf s.api_keys w).length)).map (fun t =>
          (groupOf s.api_keys w).getD
            ((s.weight_group_indices w + J + t) % (groupOf s.api_keys w).length)
            defaultKey) := by
      apply List.ext_getElem
      · rw [List.length_take, List.length_drop, List.length_map, List.length_range]
        omega
      · intro t h1 h2
        have htlen : t < m * (groupOf s.api_keys w).length := by
          rw [List.length_map, List.length_range] at h2
          exact h2
        have hJt : J + t < (tierHits s rs w).length := by omega
        rw [List.getElem_take, List.getElem_drop,
          ← List.getD_eq_getElem (tierHits s rs w) defaultKey hJt]
        rw [hcyc (J + t) hJt]
        have harith : s.weight_group_indices w + (J + t)
            = s.weight_group_indices w + J + t := by omega
        rw [harith]
        rw [List.getElem_map, List.getElem_range]
    rw [hwin]
    have hc1 : ∀ (L : List ApiKeyConfig) (x : ApiKeyConfig),
        L.count x = L.countP (fun y => y == x) := fun L x => rfl
    rw [hc1, List.countP_map]
    have hcongr : ∀ t ∈ List.range (m * (groupOf s.api_keys w).length),
        ((fun y => y == (groupOf s.api_keys w).getD i defaultKey) ∘ (fun t =>
          (groupOf s.api_keys w).getD
            ((s.weight_group_indices w + J + t) % (groupOf s.api_keys w).length)
            defaultKey)) t = true ↔
        (fun t => decide
          ((s.weight_group_indices w + J + t) % (groupOf s.api_keys w).length = i)) t
            = true := by
      intro t _
      have hu : (s.weight_group_indices w + J + t) % (groupOf s.api_keys w).length <
          (groupOf s.api_keys w).length := Nat.mod_lt _ hk0
      simp only [Function.comp, beq_iff_eq, decide_eq_true_eq]
      constructor
      · intro heq
        rw [List.getD_eq_getElem _ _ hu, List.getD_eq_getElem _ _ hik] at heq
        have hfin : (⟨(s.weight_group_indices w + J + t) % (groupOf s.api_keys w).length,
            hu⟩ : Fin (groupOf s.api_keys w).length) = ⟨i, hik⟩ :=
          (List.Nodup.get_inj_iff hnd).mp heq
        exact congrArg Fin.val hfin
      · intro heq
        rw [heq]
    rw [List.countP_congr hcongr]
    exact countP_range_mul (s.weight_group_indices w + J) _ i hik m
  · intro j1 j2 h12 hj2 heq
    have hj1 : j1 < (tierHits s rs w).length := lt_trans h12 hj2
    have hklen : 0 < (groupOf s.api_keys w).length := by
      have hel := getD_mem hj2
      have hel2 : (tierHits s rs w).getD j2 defaultKey ∈ wrrRun s rs :=
        List.mem_of_mem_filter hel
      have helw : ((tierHits s rs w).getD j2 defaultKey).weight = w := by
        have := List.of_mem_filter hel
        simpa using this
      have helk : (tierHits s rs w).getD j2 defaultKey ∈ s.api_keys :=
        wrrRun_subset rs s hwf _ hel2
      have hging : (tierHits s rs w).getD j2 defaultKey ∈ groupOf s.api_keys w :=
        List.mem_filter.mpr ⟨helk, decide_eq_true helw⟩
      exact List.length_pos.mpr (List.ne_nil_of_mem hging)
    rw [hcyc j1 hj1, hcyc j2 hj2] at heq
    have hu1 : (s.weight_group_indices w + j1) % (groupOf s.api_keys w).length <
        (groupOf s.api_keys w).length := Nat.mod_lt _ hklen
    have hu2 : (s.weight_group_indices w + j2) % (groupOf s.api_keys w).length <
        (groupOf s.api_keys w).length := Nat.mod_lt _ hklen
    rw [List.getD_eq_getElem _ _ hu1, List.getD_eq_getElem _ _ hu2] at heq
    have hfin : (⟨(s.weight_group_indices w + j1) % (groupOf s.api_keys w).length,
        hu1⟩ : Fin (groupOf s.api_keys w).length) =
        ⟨(s.weight_group_indices w + j2) % (groupOf s.api_keys w).length, hu2⟩ :=
      (List.Nodup.get_inj_iff hnd).mp heq
    have hval : (s.weight_group_indices w + j1) % (groupOf s.api_keys w).length =
        (s.weight_group_indices w + j2) % (groupOf s.api_keys w).length :=
      congrArg Fin.val hfin
    have hmeq : j1 ≡ j2 [MOD (groupOf s.api_keys w).length] :=
      Nat.ModEq.add_left_cancel' (s.weight_group_indices w) hval
    have hdvd : (groupOf s.api_keys w).length ∣ j2 - j1 :=
      (Nat.modEq_iff_dvd' (le_of_lt h12)).mp hmeq
    exact Nat.le_of_dvd (by omega) hdvd

/-- Witness for C2 at the two-tier pool, tier weight 2, and three draws
that all land in the heavy tier. -/
theorem wrr_intra_tier_round_robin_witness :
    wfState twoTierState ∧ (groupOf twoTierState.api_keys 2).Nodup ∧
    ((∀ j, j < (tierHits twoTierState [1, 1, 1] 2).length →
      (tierHits twoTierState [1, 1, 1] 2).getD j defaultKey =
        (groupOf twoTierState.api_keys 2).getD
          ((twoTierState.weight_group_indices 2 + j) %
            (groupOf twoTierState.api_keys 2).length) defaultKey) ∧
    (∀ J m, J + m * (groupOf twoTierState.api_keys 2).length ≤
        (tierHits twoTierState [1, 1, 1] 2).length →
      ∀ i, i < (groupOf twoTierState.api_keys 2).length →
        (((tierHits twoTierState [1, 1, 1] 2).drop J).take
          (m * (groupOf twoTierState.api_keys 2).length)).count
            ((groupOf twoTierState.api_keys 2).getD i defaultKey) = m) ∧
    (∀ j1 j2, j1 < j2 → j2 < (tierHits twoTierState [1, 1, 1] 2).length →
      (tierHits twoTierState [1, 1, 1] 2).getD j1 defaultKey =
        (tierHits twoTierState [1, 1, 1] 2).getD j2 defaultKey →
      (groupOf twoTierState.api_keys 2).length ≤ j2 - j1)) :=
  ⟨⟨by decide, by decide, by norm_num [twoTierState], by decide⟩, by decide,
    wrr_intra_tier_round_robin twoTierState 2 [1, 1, 1]
      ⟨by decide, by decide, by norm_num [twoTierState], by decide⟩ (by decide)⟩

end AskSageProxy
